import Mathlib

/-!
Verification of the giallo screenshot-enrichment pipeline.

The definitions below are a shallow embedding of the Python scripts under
`scripts/`: pure functions become Lean functions, dictionaries become
association lists with first-match lookup and in-place overwrite (Python
dicts preserve insertion order and a second assignment to an existing key
overwrites in place), Python floats become rationals, and fallible calls
(external LLM calls, `json.loads`, file lookups) become `Option`/`Except`
valued parameters so that a raised exception is the `none`/`.error` case.
-/

namespace Giallo

/-! ### Association-list dictionaries (Python `dict` semantics) -/

/-- `lget L k` — Python `L[k]` / `k in L`: first-match lookup in an
association list (keys are unique in all lists built by `lput`). -/
def lget {κ α : Type} [DecidableEq κ] : List (κ × α) → κ → Option α
  | [], _ => none
  | (k', v) :: rest, k => if k' = k then some v else lget rest k

/-- `lput L k v` — Python `L[k] = v`: overwrite the first binding of `k`
in place, or append a new binding at the end (dict insertion order). -/
def lput {κ α : Type} [DecidableEq κ] : List (κ × α) → κ → α → List (κ × α)
  | [], k, v => [(k, v)]
  | (k', v') :: rest, k, v =>
    if k' = k then (k', v) :: rest else (k', v') :: lput rest k v

/-- Keys currently bound in an association list. -/
def lkeys {κ α : Type} (L : List (κ × α)) : List κ := L.map Prod.fst

/-! ### Response repair (`send_images_to_llm.process_image`,
`check_cluster_screenshots_for_content.check_image_content`)

Raw LLM responses are text; `json.loads` is modelled as a parameter
`parse : List Char → Option JVal` (`none` = `json.JSONDecodeError`).
String operations are modelled on `List Char`; `str.strip()` trims
whitespace on both ends. -/

/-- Minimal JSON value model: enough to state the shapes the scripts
produce (`\x7b"nudity": bool\x7d`, error-marked objects). -/
inductive JVal where
  | jbool : Bool → JVal
  | jstr : String → JVal
  | jobj : List (String × JVal) → JVal

/-- `isPrefixL p s` — Python `s.startswith(p)` on character lists. -/
def isPrefixL : List Char → List Char → Bool
  | [], _ => true
  | _ :: _, [] => false
  | a :: as, b :: bs => a = b && isPrefixL as bs

/-- Python `str.strip()`: drop whitespace from both ends. -/
def pyStrip (s : List Char) : List Char :=
  ((s.dropWhile Char.isWhitespace).reverse.dropWhile Char.isWhitespace).reverse

/-- The markdown-fence repair step shared by both scripts: strip, drop a
leading ```` ```json ```` (7 chars) or ```` ``` ```` (3 chars), drop a
trailing ```` ``` ````, strip again. -/
def stripFences (content : List Char) : List Char :=
  let cleaned := pyStrip content
  let cleaned :=
    if isPrefixL ("```json".toList) cleaned then cleaned.drop 7
    else if isPrefixL ("```".toList) cleaned then cleaned.drop 3
    else cleaned
  let cleaned :=
    if isPrefixL ("```".toList) cleaned.reverse then cleaned.take (cleaned.length - 3)
    else cleaned
  pyStrip cleaned

/-- The parse-failure default of `check_image_content`:
`\x7b"nudity": False\x7d`. -/
def nudityFalseDefault : JVal := JVal.jobj [("nudity", JVal.jbool false)]

/-- `check_image_content` response handling: strict parse, on failure strip
fences and retry once, on repeated failure return `\x7b"nudity": False\x7d`. -/
def check_image_content (parse : List Char → Option JVal) (content : List Char) : JVal :=
  match parse content with
  | some r => r
  | none =>
    match parse (stripFences content) with
    | some r => r
    | none => nudityFalseDefault

/-- `process_image` response handling (send_images_to_llm): strict parse,
on failure strip fences and retry once; a second failure raises
`json.JSONDecodeError` to the caller, modelled as `none`. -/
def process_image (parse : List Char → Option JVal) (content : List Char) : Option JVal :=
  match parse content with
  | some r => some r
  | none => parse (stripFences content)

/-- A concrete `json.loads` stand-in for witnesses: parses exactly the two
well-formed collaborator responses. -/
def parseDemo : List Char → Option JVal := fun s =>
  if s = "VALIDFALSE".toList then some (JVal.jobj [("nudity", JVal.jbool false)])
  else if s = "VALIDTRUE".toList then some (JVal.jobj [("nudity", JVal.jbool true)])
  else none

/-! ### Checkpointed batch processors -/

/-- Error-marked entry written by `process_batch` / `process_screenshot`:
`\x7b"nudity": False, "error": msg\x7d`. -/
def nudityErrorResult (msg : String) : JVal :=
  JVal.jobj [("nudity", JVal.jbool false), ("error", JVal.jstr msg)]

/-- `check_cluster_screenshots_for_content.process_batch`: for each
screenshot, resolve its path (`none` = not found → error-marked entry),
then run the content check (`Except.error` = raised exception →
error-marked entry); every file gets exactly one `results` entry. -/
def process_batch (pathOf : String → Option String) (check : String → Except String JVal) :
    List String → List (String × JVal) → List (String × JVal)
  | [], results => results
  | f :: fs, results =>
    match pathOf f with
    | none => process_batch pathOf check fs (lput results f (nudityErrorResult "file_not_found"))
    | some pth =>
      match check pth with
      | .ok r => process_batch pathOf check fs (lput results f r)
      | .error e => process_batch pathOf check fs (lput results f (nudityErrorResult e))

/-- `send_images_to_llm.process_directory` main loop: skip files already in
`results`; otherwise call `process_image` (`p`, `none` = raised exception:
the file is *not* recorded, just counted and skipped); on success store the
result and save. Returns the final ledger and the list of files for which
an external call was attempted. -/
def process_directory {α : Type} (p : String → Option α) :
    List String → List (String × α) → List (String × α) × List String
  | [], results => (results, [])
  | f :: fs, results =>
    if (lget results f).isSome then process_directory p fs results
    else
      match p f with
      | some r =>
        let rest := process_directory p fs (lput results f r)
        (rest.1, f :: rest.2)
      | none =>
        let rest := process_directory p fs results
        (rest.1, f :: rest.2)

/-! ### Rounding (`build_timeline_data.round_up_to_nearest_5_percent`) -/

/-- `round_up_to_nearest_5_percent`: `math.ceil(percentage * 20) / 20`
(Python floats modelled as rationals). -/
def round_up_to_nearest_5_percent (percentage : ℚ) : ℚ :=
  (⌈percentage * 20⌉ : ℚ) / 20

/-! ### Filtered nearest neighbors (`build_nearest_neighbors.py`) -/

/-- All-digit, nonempty character list (`\d+`). -/
def isDigitsL (l : List Char) : Bool := !l.isEmpty && l.all Char.isDigit

/-- Numeric value of a digit string (Python `int` on the `\d+` capture). -/
def natOfDigits (l : List Char) : Nat :=
  l.foldl (fun n c => 10 * n + (c.toNat - 48)) 0

/-- `checkSplitAt stem p`: the regex `^(.+)__(\d+)\.jpg$` can cut `stem`
(the filename without its `.jpg` suffix) at position `p`: a nonempty movie
part, the two underscores, then a nonempty all-digit frame part. -/
def checkSplitAt (stem : List Char) (p : Nat) : Bool :=
  decide (1 ≤ p) &&
    (match stem.drop p with
     | '_' :: '_' :: ds => isDigitsL ds
     | _ => false)

/-- `extract_movie_and_frame`: match `^(.+)__(\d+)\.jpg$`; the greedy
`(.+)` makes the movie part as long as possible, i.e. the split point is
the rightmost valid one.  Digits are ASCII digits; keys are ordinary
newline-free filenames. -/
def extract_movie_and_frame (filename : String) : Option (String × Nat) :=
  let cs := filename.toList
  if isPrefixL (".jpg".toList.reverse) cs.reverse then
    let stem := cs.take (cs.length - 4)
    match (List.range stem.length).reverse.find? (checkSplitAt stem) with
    | some p => some (⟨stem.take p⟩, natOfDigits (stem.drop (p + 2)))
    | none => none
  else none

/-- `should_exclude`: exclude a candidate iff both keys parse, the movies
are equal, and the absolute frame difference is at most `window`. -/
def should_exclude (query_file candidate_file : String) (window : Nat) : Bool :=
  match extract_movie_and_frame query_file, extract_movie_and_frame candidate_file with
  | some (qm, qf), some (cm, cf) =>
    if qm ≠ cm then false
    else ((qf : Int) - (cf : Int)).natAbs ≤ window
  | _, _ => false

/-- One filtered neighbor: candidate key plus cosine distance. -/
structure Neighbor where
  screenshot : String
  distance : ℚ
deriving DecidableEq

/-- The filtering loop of `find_filtered_neighbors`: walk the raw
`(distance, index)` candidates in order, skip the query's own index, skip
candidates matched by `should_exclude` (window 10), stop as soon as
`target_count` neighbors are accepted. -/
def filterNeighborsLoop (keys : List String) (query_idx target_count : Nat)
    (acc : List Neighbor) : List (ℚ × Nat) → List Neighbor
  | [] => acc
  | (dist, idx) :: rest =>
    if idx = query_idx then filterNeighborsLoop keys query_idx target_count acc rest
    else
      let candidate_key := keys.getD idx ""
      if should_exclude (keys.getD query_idx "") candidate_key 10 then
        filterNeighborsLoop keys query_idx target_count acc rest
      else
        let acc' := acc ++ [⟨candidate_key, dist⟩]
        if target_count ≤ acc'.length then acc'
        else filterNeighborsLoop keys query_idx target_count acc' rest

/-- `find_filtered_neighbors keys query_idx cands target_count`: `cands`
is the raw nearest-neighbor output (ascending distance, indices into
`keys`). -/
def find_filtered_neighbors (keys : List String) (query_idx : Nat)
    (cands : List (ℚ × Nat)) (target_count : Nat) : List Neighbor :=
  filterNeighborsLoop keys query_idx target_count [] cands

/-! ### Run detection (`build_timeline_data.find_sequences`)

Python `sorted` is modelled by `List.insertionSort (· ≤ ·)`: over a
linear order the sorted permutation of a list is unique, so any correct
sort is an exact model. -/

/-- The loop body of `find_sequences`: `last` is the last element of the
current run, `curRev` the current run in reverse; on a gap the current
run is emitted and a new one starts. -/
def seqGo (last : Int) (curRev : List Int) : List Int → List (List Int)
  | [] => [curRev.reverse]
  | x :: xs =>
    if x = last + 1 then seqGo x (x :: curRev) xs
    else curRev.reverse :: seqGo x [x] xs

/-- `find_sequences`: sort the frame numbers and split them into maximal
consecutive runs. -/
def find_sequences (frame_numbers : List Int) : List (List Int) :=
  match List.insertionSort (· ≤ ·) frame_numbers with
  | [] => []
  | x :: xs => seqGo x [x] xs

/-- Successive elements differ by exactly 1. -/
def isConsecRun : List Int → Bool
  | [] => true
  | [_] => true
  | x :: y :: rest => decide (y = x + 1) && isConsecRun (y :: rest)

/-- Adjacent runs cannot be merged: the head of each following run is not
the successor of the last element of the run before it (maximality). -/
def runsSeparated : List (List Int) → Bool
  | [] => true
  | [_] => true
  | r1 :: r2 :: rest =>
    (match r1.getLast?, r2.head? with
     | some a, some b => decide (b ≠ a + 1)
     | _, _ => false) && runsSeparated (r2 :: rest)

/-! ### Timeline aggregation (`build_timeline_data.main`, lines 152–166)

A `TPoint` is one pre-aggregation timeline point `(video, rounded
percentage, count)`.  The `defaultdict` accumulation
`percentage_counts[pct]["count"] += point["count"];
percentage_counts[pct]["videos"].add(point["video"])` is modelled by
`bump`; the final `sorted(percentage_counts.items())` (keys are unique,
so sorting compares only the percentage) by `List.insertionSort` on the
key. -/

/-- One un-aggregated timeline point. -/
structure TPoint where
  video : String
  percentage : ℚ
  count : Nat

/-- One `defaultdict` update: add `c` to the count stored at key `pct`
and add `v` to its video set, creating the entry from the default
`(0, ∅)` if the key is absent (appended at the end: dict order). -/
def bump : List (ℚ × Nat × Finset String) → ℚ → Nat → String →
    List (ℚ × Nat × Finset String)
  | [], pct, c, v => [(pct, c, {v})]
  | (p, cv) :: rest, pct, c, v =>
    if p = pct then (p, cv.1 + c, insert v cv.2) :: rest
    else (p, cv) :: bump rest pct c v

/-- The accumulation loop over all timeline points. -/
def aggregateFold (pts : List TPoint) (m : List (ℚ × Nat × Finset String)) :
    List (ℚ × Nat × Finset String) :=
  pts.foldl (fun m p => bump m p.percentage p.count p.video) m

/-- `main`'s per-cluster aggregation: accumulate, then emit entries in
ascending key order. -/
def aggregatePoints (pts : List TPoint) : List (ℚ × Nat × Finset String) :=
  List.insertionSort (fun a b => a.1 ≤ b.1) (aggregateFold pts [])

/-- Total count contributed at rounded position `q`. -/
def sumCounts (pts : List TPoint) (q : ℚ) : Nat :=
  ((pts.filter (fun p => p.percentage = q)).map TPoint.count).sum

/-- Set of source videos contributing at rounded position `q`. -/
def videoSet (pts : List TPoint) (q : ℚ) : Finset String :=
  ((pts.filter (fun p => p.percentage = q)).map TPoint.video).toFinset

/-- Count stored at key `q` (0 if absent). -/
def getC : List (ℚ × Nat × Finset String) → ℚ → Nat
  | [], _ => 0
  | (p, c, _) :: rest, q => if p = q then c else getC rest q

/-- Video set stored at key `q` (∅ if absent). -/
def getV : List (ℚ × Nat × Finset String) → ℚ → Finset String
  | [], _ => ∅
  | (p, _, vs) :: rest, q => if p = q then vs else getV rest q

/-- Key membership. -/
def hasP : List (ℚ × Nat × Finset String) → ℚ → Bool
  | [], _ => false
  | (p, _, _) :: rest, q => p = q || hasP rest q

instance : IsTotal (ℚ × Nat × Finset String) (fun a b => a.1 ≤ b.1) :=
  ⟨fun a b => le_total a.1 b.1⟩

instance : IsTrans (ℚ × Nat × Finset String) (fun a b => a.1 ≤ b.1) :=
  ⟨fun _ _ _ h1 h2 => le_trans h1 h2⟩

/-! ### Filename parsing and the truthiness guard
(`build_timeline_data.parse_filename` and `main`, lines 110–115) -/

/-- Rightmost index at which `__` starts in `s` — the split point of
Python `s.rsplit('__', 1)`; `none` when `'__' not in s`. -/
def lastIdxOfPair (s : List Char) : Option Nat :=
  (List.range (s.length + 1)).reverse.find? (fun p =>
    isPrefixL ['_', '_'] (s.drop p))

/-- Python `str.replace(".jpg", "")`: remove every (non-overlapping,
left-to-right) occurrence. -/
def removeJpgAll : List Char → List Char
  | [] => []
  | '.' :: 'j' :: 'p' :: 'g' :: rest => removeJpgAll rest
  | c :: rest => c :: removeJpgAll rest

/-- Python `int(...)` on the frame substring: optional sign, then a
nonempty digit string (whitespace-trimmed; numeric-separator underscores
are not modelled). -/
def pyInt (s : List Char) : Option Int :=
  match pyStrip s with
  | '-' :: ds => if isDigitsL ds then some (-(natOfDigits ds : Int)) else none
  | '+' :: ds => if isDigitsL ds then some ((natOfDigits ds : Int)) else none
  | ds => if isDigitsL ds then some ((natOfDigits ds : Int)) else none

/-- `parse_filename`: `None, None` without a `__` delimiter; otherwise
split at the last `__` (`rsplit('__', 1)`), delete `.jpg` occurrences
from the frame part and parse it as an integer (`None, None` on
`ValueError`). -/
def parse_filename (filename : String) : Option (String × Int) :=
  let cs := filename.toList
  match lastIdxOfPair cs with
  | none => none
  | some p =>
    match pyInt (removeJpgAll (cs.drop (p + 2))) with
    | some n => some (⟨cs.take p⟩, n)
    | none => none

/-- The grouping guard in `main` (`if video_name and frame_number:`),
Python truthiness: a key contributes to its video group iff parsing
succeeded, the video name is non-empty, and the frame number is nonzero. -/
def includedInVideoGroup (filename : String) : Bool :=
  match parse_filename filename with
  | some (v, n) => decide (v ≠ "") && decide (n ≠ 0)
  | none => false

/-! ### Cluster assignment (`cluster_hdbscan.analyze_clusters`,
`cluster_hdbscan.save_reverse_index`)

Both structures are built from the same `zip(keys, cluster_labels)` pass;
`keys` are the keys of one Python dict, hence pairwise distinct. -/

/-- `clusters[int(label)].append(key)` on a `defaultdict(list)`: append
`k` to label `lab`'s member list (entry created at the end if absent). -/
def addMember : List (Int × List String) → Int → String → List (Int × List String)
  | [], lab, k => [(lab, [k])]
  | (l, ms) :: rest, lab, k =>
    if l = lab then (l, ms ++ [k]) :: rest
    else (l, ms) :: addMember rest lab k

/-- `analyze_clusters`: fold the key/label pairs into the label → member
list dictionary, preserving discovery order. -/
def analyze_clusters (keys : List String) (labels : List Int) :
    List (Int × List String) :=
  (keys.zip labels).foldl (fun m kl => addMember m kl.2 kl.1) []

/-- `save_reverse_index`: the key → label dict built over the same pairs
(`reverse_index[key] = int(label)`). -/
def save_reverse_index (keys : List String) (labels : List Int) :
    List (String × Int) :=
  (keys.zip labels).foldl (fun m kl => lput m kl.1 kl.2) []

/-- Member list of a label (`[]` when the label never occurs). -/
def membersOf (keys : List String) (labels : List Int) (lab : Int) : List String :=
  (lget (analyze_clusters keys labels) lab).getD []

/-- Keys of the pairs carrying label `q`, in order. -/
def msOf (ps : List (String × Int)) (q : Int) : List String :=
  (ps.filter (fun kl => kl.2 = q)).map Prod.fst

theorem lget_lput {κ α : Type} [DecidableEq κ] (L : List (κ × α)) (k j : κ) (v : α) :
    lget (lput L k v) j = if k = j then some v else lget L j := by
  induction L with
  | nil =>
    by_cases h : k = j <;> simp [lput, lget, h]
  | cons hd tl ih =>
    obtain ⟨k', v'⟩ := hd
    by_cases h1 : k' = k
    · subst h1
      by_cases h2 : k' = j <;> simp [lput, lget, h2]
    · by_cases h2 : k' = j
      · subst h2
        simp [lput, lget, h1, ih]
        rw [if_neg (fun h => h1 h.symm)]
      · simp [lput, lget, h1, h2, ih]

theorem lput_of_absent {κ α : Type} [DecidableEq κ] (L : List (κ × α)) (k : κ) (v : α)
    (h : lget L k = none) : lput L k v = L ++ [(k, v)] := by
  induction L with
  | nil => simp [lput]
  | cons hd tl ih =>
    obtain ⟨k', v'⟩ := hd
    by_cases h1 : k' = k
    · simp [lget, h1] at h
    · simp [lget, h1] at h
      simp [lput, h1, ih h]

theorem lget_append {κ α : Type} [DecidableEq κ] (L M : List (κ × α)) (k : κ) :
    lget (L ++ M) k = ((lget L k).or (lget M k)) := by
  induction L with
  | nil => simp [lget]
  | cons hd tl ih =>
    obtain ⟨k', v'⟩ := hd
    by_cases h1 : k' = k <;> simp [lget, h1, ih]

theorem lkeys_lput {κ α : Type} [DecidableEq κ] (L : List (κ × α)) (k : κ) (v : α) :
    lkeys (lput L k v) = if (lget L k).isSome then lkeys L else lkeys L ++ [k] := by
  induction L with
  | nil => simp [lput, lget, lkeys]
  | cons hd tl ih =>
    obtain ⟨k', v'⟩ := hd
    by_cases h1 : k' = k
    · simp [lput, lget, lkeys, h1]
    · simp only [lput, lget, lkeys, h1, if_neg, if_false, List.map_cons]
      simp only [lkeys] at ih
      rw [ih]
      by_cases h2 : (lget tl k).isSome <;> simp [h2]

theorem lget_isSome_iff_mem_lkeys {κ α : Type} [DecidableEq κ] (L : List (κ × α)) (k : κ) :
    (lget L k).isSome ↔ k ∈ lkeys L := by
  induction L with
  | nil => simp [lget, lkeys]
  | cons hd tl ih =>
    obtain ⟨k', v'⟩ := hd
    by_cases h1 : k' = k <;> simp [lget, lkeys, h1, ih]
    · exact fun h => absurd h.symm h1

theorem lkeys_nodup_lput {κ α : Type} [DecidableEq κ] (L : List (κ × α)) (k : κ) (v : α)
    (h : (lkeys L).Nodup) : (lkeys (lput L k v)).Nodup := by
  rw [lkeys_lput]
  by_cases h2 : (lget L k).isSome
  · simp [h2, h]
  · simp only [h2, if_false]
    have hk : k ∉ lkeys L := by
      rw [← lget_isSome_iff_mem_lkeys]; simp_all
    simp [List.nodup_append, h, hk]

theorem lget_process_batch_isSome (pathOf : String → Option String)
    (check : String → Except String JVal) (fs : List String)
    (R : List (String × JVal)) (f : String)
    (h : f ∈ fs ∨ (lget R f).isSome) :
    (lget (process_batch pathOf check fs R) f).isSome := by
  induction fs generalizing R with
  | nil =>
    rcases h with h | h
    · exact absurd h (List.not_mem_nil f)
    · exact h
  | cons g gs ih =>
    rcases h with h | h
    · rcases List.mem_cons.mp h with h | h
      · subst h
        cases hp : pathOf f with
        | none =>
          refine (by simp [process_batch, hp] : process_batch pathOf check (f :: gs) R =
            process_batch pathOf check gs (lput R f (nudityErrorResult "file_not_found"))) ▸ ?_
          exact ih _ (Or.inr (by simp [lget_lput]))
        | some pth =>
          cases hc : check pth with
          | ok r =>
            simp only [process_batch, hp, hc]
            exact ih _ (Or.inr (by simp [lget_lput]))
          | error e =>
            simp only [process_batch, hp, hc]
            exact ih _ (Or.inr (by simp [lget_lput]))
      · cases hp : pathOf g with
        | none => simp only [process_batch, hp]; exact ih _ (Or.inl h)
        | some pth =>
          cases hc : check pth with
          | ok r => simp only [process_batch, hp, hc]; exact ih _ (Or.inl h)
          | error e => simp only [process_batch, hp, hc]; exact ih _ (Or.inl h)
    · have hput : ∀ v, (lget (lput R g v) f).isSome := by
        intro v
        rw [lget_lput]
        by_cases hgf : g = f <;> simp [hgf, h]
      cases hp : pathOf g with
      | none => simp only [process_batch, hp]; exact ih _ (Or.inr (hput _))
      | some pth =>
        cases hc : check pth with
        | ok r => simp only [process_batch, hp, hc]; exact ih _ (Or.inr (hput _))
        | error e => simp only [process_batch, hp, hc]; exact ih _ (Or.inr (hput _))

theorem lkeys_process_batch_nodup (pathOf : String → Option String)
    (check : String → Except String JVal) (fs : List String)
    (R : List (String × JVal)) (h : (lkeys R).Nodup) :
    (lkeys (process_batch pathOf check fs R)).Nodup := by
  induction fs generalizing R with
  | nil => exact h
  | cons g gs ih =>
    cases hp : pathOf g with
    | none => simp only [process_batch, hp]; exact ih _ (lkeys_nodup_lput _ _ _ h)
    | some pth =>
      cases hc : check pth with
      | ok r => simp only [process_batch, hp, hc]; exact ih _ (lkeys_nodup_lput _ _ _ h)
      | error e => simp only [process_batch, hp, hc]; exact ih _ (lkeys_nodup_lput _ _ _ h)

theorem lget_process_directory_mono {α : Type} (p : String → Option α) (fs : List String)
    (L : List (String × α)) (f : String) (h : (lget L f).isSome) :
    (lget (process_directory p fs L).1 f).isSome := by
  induction fs generalizing L with
  | nil => exact h
  | cons g gs ih =>
    by_cases hg : (lget L g).isSome
    · simp only [process_directory, hg, if_true]
      exact ih _ h
    · cases hp : p g with
      | some r =>
        simp only [process_directory, hg, if_false]
        simp only [hp]
        refine ih _ ?_
        rw [lget_lput]
        by_cases hgf : g = f <;> simp [hgf, h]
      | none =>
        simp only [process_directory, hg, if_false]
        simp only [hp]
        exact ih _ h

theorem lget_process_directory_none {α : Type} (p : String → Option α) (fs : List String)
    (L : List (String × α)) (f : String) (hL : lget L f = none) (hp : p f = none) :
    lget (process_directory p fs L).1 f = none := by
  induction fs generalizing L with
  | nil => exact hL
  | cons g gs ih =>
    by_cases hg : (lget L g).isSome
    · simp only [process_directory, hg, if_true]
      exact ih _ hL
    · by_cases hgf : g = f
      · subst hgf
        simp only [process_directory, hg, if_false, hp]
        exact ih _ hL
      · cases hpg : p g with
        | some r =>
          simp only [process_directory, hg, if_false, hpg]
          refine ih _ ?_
          rw [lget_lput, if_neg hgf]
          exact hL
        | none =>
          simp only [process_directory, hg, if_false, hpg]
          exact ih _ hL

theorem lget_process_directory_of_some {α : Type} (p : String → Option α) (fs : List String)
    (L : List (String × α)) (f : String) (r : α) (hf : f ∈ fs) (hp : p f = some r) :
    (lget (process_directory p fs L).1 f).isSome := by
  induction fs generalizing L with
  | nil => exact absurd hf (List.not_mem_nil f)
  | cons g gs ih =>
    rcases List.mem_cons.mp hf with h | h
    · subst h
      by_cases hg : (lget L f).isSome
      · simp only [process_directory, hg, if_true]
        exact lget_process_directory_mono p gs L f hg
      · simp only [process_directory, hg, if_false, hp]
        refine lget_process_directory_mono p gs _ f ?_
        simp [lget_lput]
    · by_cases hg : (lget L g).isSome
      · simp only [process_directory, hg, if_true]
        exact ih _ h
      · cases hpg : p g with
        | some s =>
          simp only [process_directory, hg, if_false, hpg]
          exact ih _ h
        | none =>
          simp only [process_directory, hg, if_false, hpg]
          exact ih _ h

theorem process_directory_all_present {α : Type} (p : String → Option α) (fs : List String)
    (L : List (String × α)) (h : ∀ f ∈ fs, (lget L f).isSome) :
    process_directory p fs L = (L, []) := by
  induction fs with
  | nil => rfl
  | cons g gs ih =>
    have hg : (lget L g).isSome := h g (List.mem_cons_self g gs)
    simp only [process_directory, hg, if_true]
    exact ih (fun f hf => h f (List.mem_cons_of_mem g hf))

theorem process_directory_calls_absent {α : Type} (p : String → Option α) (fs : List String)
    (L : List (String × α)) (f : String) (hf : f ∈ (process_directory p fs L).2) :
    lget L f = none := by
  induction fs generalizing L with
  | nil => exact absurd hf (List.not_mem_nil f)
  | cons g gs ih =>
    by_cases hg : (lget L g).isSome
    · simp only [process_directory, hg, if_true] at hf
      exact ih _ hf
    · cases hpg : p g with
      | some r =>
        simp only [process_directory, hg, if_false, hpg] at hf
        rcases List.mem_cons.mp hf with h | h
        · subst h
          simpa using hg
        · have := ih _ h
          rw [lget_lput] at this
          by_cases hgf : g = f
          · simp [hgf] at this
          · rwa [if_neg hgf] at this
      | none =>
        simp only [process_directory, hg, if_false, hpg] at hf
        rcases List.mem_cons.mp hf with h | h
        · subst h
          simpa using hg
        · exact ih _ h

/-! ### Claims C1, C2, C5 -/

/-- C1, counterexample: in `send_images_to_llm.process_directory`, an
exception while processing an item (`p` returns `none`) leaves *no* entry
for that item, even though the item was submitted and an external call was
attempted — the final ledger is empty for a one-item input whose call
raises, refuting "no submitted Item is absent from the final Ledger". -/
theorem C1_exception_drops_item_counterexample :
    "MovieA__0001.jpg" ∈ ["MovieA__0001.jpg"]
    ∧ (process_directory (fun _ => (none : Option JVal)) ["MovieA__0001.jpg"] []).2
        = ["MovieA__0001.jpg"]
    ∧ lget (process_directory (fun _ => (none : Option JVal)) ["MovieA__0001.jpg"] []).1
        "MovieA__0001.jpg" = none :=
  ⟨List.mem_cons_self _ _, rfl, rfl⟩

/-- C1 (amended): in the content-check batch processor (`process_batch`),
every submitted item ends with exactly one entry (a result or an
error-marked result): it is present, and the result keys are duplicate
free.  In the directory enrichment processor (`process_directory`), an
item whose external call raises an exception is left *absent* from the
ledger (it stays unprocessed, to be retried on a later run), while an item
whose call succeeds ends up present. -/
theorem C1_no_loss_amended (pathOf : String → Option String)
    (check : String → Except String JVal) (batch : List String)
    {α : Type} (p : String → Option α) (fs : List String)
    (L : List (String × α)) (f : String) :
    (f ∈ batch → (lget (process_batch pathOf check batch []) f).isSome
        ∧ (lkeys (process_batch pathOf check batch [])).Nodup)
    ∧ (f ∈ fs → lget L f = none → p f = none →
        lget (process_directory p fs L).1 f = none)
    ∧ (∀ r, f ∈ fs → p f = some r →
        (lget (process_directory p fs L).1 f).isSome) := by
  refine ⟨fun hb => ⟨?_, ?_⟩, fun _ hL hp => ?_, fun r hf hp => ?_⟩
  · exact lget_process_batch_isSome pathOf check batch [] f (Or.inl hb)
  · exact lkeys_process_batch_nodup pathOf check batch [] List.nodup_nil
  · exact lget_process_directory_none p fs L f hL hp
  · exact lget_process_directory_of_some p fs L f r hf hp

/-- Witness for C1 (amended) at a concrete one-item batch whose content
check raises: the item still ends with an entry and keys are unique. -/
theorem C1_no_loss_amended_witness :
    (lget (process_batch (fun _ => some "pth") (fun _ => Except.error "boom")
      ["a__1.jpg"] []) "a__1.jpg").isSome
    ∧ (lkeys (process_batch (fun _ => some "pth") (fun _ => Except.error "boom")
      ["a__1.jpg"] [])).Nodup :=
  (C1_no_loss_amended (fun _ => some "pth") (fun _ => Except.error "boom") ["a__1.jpg"]
    (fun _ => (none : Option JVal)) [] [] "a__1.jpg").1 (List.mem_cons_self _ _)

/-- C2, counterexample: when both the strict parse and the post-repair
retry fail, `check_image_content` returns `\x7b"nudity": false\x7d` — the
very same value a successful parse of a valid "no nudity" response
produces — with no error marker and no embedded raw text; and
`process_image` raises (returns `none`) rather than returning an
error-marked result. -/
theorem C2_default_indistinguishable_counterexample :
    parseDemo "garbage".toList = none
    ∧ parseDemo (stripFences "garbage".toList) = none
    ∧ check_image_content parseDemo "garbage".toList = nudityFalseDefault
    ∧ parseDemo "VALIDFALSE".toList = some nudityFalseDefault
    ∧ check_image_content parseDemo "VALIDFALSE".toList = nudityFalseDefault
    ∧ process_image parseDemo "garbage".toList = none :=
  ⟨rfl, rfl, rfl, rfl, rfl, rfl⟩

/-- C2 (amended): on a strict-parse failure the workers strip fence
markers and retry the parse exactly once; if the retry also fails, the
content-safety worker returns the default `\x7b"nudity": false\x7d`
(indistinguishable from a successfully parsed valid result, with no raw
text attached) and the description worker propagates the parse exception
to its caller. -/
theorem C2_repair_amended (parse : List Char → Option JVal) (content : List Char) :
    (∀ r, parse content = some r →
      check_image_content parse content = r ∧ process_image parse content = some r)
    ∧ (parse content = none → ∀ r, parse (stripFences content) = some r →
      check_image_content parse content = r ∧ process_image parse content = some r)
    ∧ (parse content = none → parse (stripFences content) = none →
      check_image_content parse content = nudityFalseDefault
        ∧ process_image parse content = none) := by
  refine ⟨?_, ?_, ?_⟩ <;> intros <;> simp_all [check_image_content, process_image]

/-- Witness for C2 (amended): concrete unparseable content with the demo
parser — both attempts fail, the default is returned, the exception
propagates. -/
theorem C2_repair_amended_witness :
    check_image_content parseDemo "garbage".toList = nudityFalseDefault
    ∧ process_image parseDemo "garbage".toList = none :=
  (C2_repair_amended parseDemo "garbage".toList).2.2 rfl rfl

/-- C5: if the first run's external calls all succeed, a second run of
`process_directory` over the same file list and the ledger produced by the
first run leaves the ledger unchanged and attempts zero external calls;
moreover (unconditionally) only items absent from the starting ledger are
submitted to the collaborator, and items already present are never
submitted. -/
theorem C5_second_run_noop {α : Type} (p : String → Option α) (fs : List String)
    (L0 : List (String × α)) (h : ∀ f, (p f).isSome) :
    process_directory p fs (process_directory p fs L0).1
      = ((process_directory p fs L0).1, [])
    ∧ (∀ f, f ∈ (process_directory p fs L0).2 → lget L0 f = none)
    ∧ (∀ f, f ∈ fs → (lget L0 f).isSome → f ∉ (process_directory p fs L0).2) := by
  refine ⟨?_, ?_, ?_⟩
  · refine process_directory_all_present p fs _ ?_
    intro f hf
    obtain ⟨r, hr⟩ := Option.isSome_iff_exists.mp (h f)
    exact lget_process_directory_of_some p fs L0 f r hf hr
  · exact fun f => process_directory_calls_absent p fs L0 f
  · intro f _ hsome hmem
    have habs := process_directory_calls_absent p fs L0 f hmem
    rw [habs] at hsome
    exact absurd hsome (by simp)

/-- Witness for C5 at a concrete two-item corpus with an always-succeeding
collaborator. -/
theorem C5_second_run_noop_witness :
    process_directory (fun _ => some "res") ["a__1.jpg", "b__2.jpg"]
        (process_directory (fun _ => some "res") ["a__1.jpg", "b__2.jpg"]
          ([] : List (String × String))).1
      = ((process_directory (fun _ => some "res") ["a__1.jpg", "b__2.jpg"]
          ([] : List (String × String))).1, [])
    ∧ (∀ f, f ∈ (process_directory (fun _ => some "res") ["a__1.jpg", "b__2.jpg"]
          ([] : List (String × String))).2 → lget ([] : List (String × String)) f = none)
    ∧ (∀ f, f ∈ ["a__1.jpg", "b__2.jpg"] →
        (lget ([] : List (String × String)) f).isSome →
        f ∉ (process_directory (fun _ => some "res") ["a__1.jpg", "b__2.jpg"]
          ([] : List (String × String))).2) :=
  C5_second_run_noop (fun _ => some "res") ["a__1.jpg", "b__2.jpg"] [] (fun _ => rfl)

/-- C4: on `[0,1]` the rounding function dominates its argument and is
idempotent (`ceil` of an integer multiple of `1/20` is itself). -/
theorem C4_rounding_monotonicity (x : ℚ) (h0 : 0 ≤ x) (h1 : x ≤ 1) :
    x ≤ round_up_to_nearest_5_percent x
    ∧ round_up_to_nearest_5_percent (round_up_to_nearest_5_percent x)
        = round_up_to_nearest_5_percent x := by
  constructor
  · rw [round_up_to_nearest_5_percent, le_div_iff₀ (by norm_num : (0:ℚ) < 20)]
    exact Int.le_ceil (x * 20)
  · rw [round_up_to_nearest_5_percent, round_up_to_nearest_5_percent,
      div_mul_cancel₀ _ (by norm_num : (20:ℚ) ≠ 0), Int.ceil_intCast]

/-- Witness for C4 at `x = 0.27`: hypotheses hold, and concretely
`f(0.27) = 0.30`. -/
theorem C4_rounding_monotonicity_witness :
    ((27/100 : ℚ) ≤ round_up_to_nearest_5_percent (27/100)
      ∧ round_up_to_nearest_5_percent (round_up_to_nearest_5_percent (27/100))
          = round_up_to_nearest_5_percent (27/100))
    ∧ round_up_to_nearest_5_percent (27/100) = 3/10 := by
  refine ⟨C4_rounding_monotonicity (27/100) (by norm_num) (by norm_num), ?_⟩
  rw [round_up_to_nearest_5_percent,
    (by norm_num [Int.ceil_eq_iff] : ⌈(27/100 : ℚ) * 20⌉ = 6)]
  norm_num

theorem should_exclude_eq_false_sound (q c : String) (w : Nat)
    (h : should_exclude q c w = false) (qm cm : String) (qf cf : Nat)
    (hq : extract_movie_and_frame q = some (qm, qf))
    (hc : extract_movie_and_frame c = some (cm, cf)) (hm : qm = cm) :
    ¬(((qf : Int) - (cf : Int)).natAbs ≤ w) := by
  rw [should_exclude, hq, hc] at h
  subst hm
  simp at h
  omega

theorem mem_filterNeighborsLoop (keys : List String) (qi tc : Nat)
    (cands : List (ℚ × Nat)) (acc : List Neighbor) (n : Neighbor)
    (hcands : ∀ c ∈ cands, c.2 < keys.length)
    (hacc : ∀ m ∈ acc, should_exclude (keys.getD qi "") m.screenshot 10 = false
      ∧ ∃ i, i < keys.length ∧ i ≠ qi ∧ m.screenshot = keys.getD i "")
    (hn : n ∈ filterNeighborsLoop keys qi tc acc cands) :
    should_exclude (keys.getD qi "") n.screenshot 10 = false
      ∧ ∃ i, i < keys.length ∧ i ≠ qi ∧ n.screenshot = keys.getD i "" := by
  induction cands generalizing acc with
  | nil => exact hacc n hn
  | cons cand rest ih =>
    obtain ⟨dist, idx⟩ := cand
    by_cases hidx : idx = qi
    · simp only [filterNeighborsLoop, hidx, if_true] at hn
      exact ih _ (fun c hc => hcands c (List.mem_cons_of_mem _ hc)) hacc hn
    · by_cases hexcl : should_exclude (keys.getD qi "") (keys.getD idx "") 10 = true
      · simp only [filterNeighborsLoop, hidx, if_false, hexcl, if_true] at hn
        exact ih _ (fun c hc => hcands c (List.mem_cons_of_mem _ hc)) hacc hn
      · have hexcl' : should_exclude (keys.getD qi "") (keys.getD idx "") 10 = false :=
          Bool.eq_false_iff.mpr hexcl
        have hP : should_exclude (keys.getD qi "") (Neighbor.mk (keys.getD idx "") dist).screenshot 10 = false
            ∧ ∃ i, i < keys.length ∧ i ≠ qi
              ∧ (Neighbor.mk (keys.getD idx "") dist).screenshot = keys.getD i "" :=
          ⟨hexcl', idx, hcands (dist, idx) (List.mem_cons_self _ _), hidx, rfl⟩
        have hacc' : ∀ m ∈ acc ++ [Neighbor.mk (keys.getD idx "") dist],
            should_exclude (keys.getD qi "") m.screenshot 10 = false
              ∧ ∃ i, i < keys.length ∧ i ≠ qi ∧ m.screenshot = keys.getD i "" := by
          intro m hm
          rcases List.mem_append.mp hm with hm | hm
          · exact hacc m hm
          · rcases List.mem_singleton.mp hm with rfl
            exact hP
        simp only [filterNeighborsLoop, hidx, if_false, hexcl, if_true] at hn
        by_cases hstop : tc ≤ (acc ++ [Neighbor.mk (keys.getD idx "") dist]).length
        · simp only [hstop, if_true] at hn
          exact hacc' n hn
        · simp only [hstop, if_false] at hn
          exact ih _ (fun c hc => hcands c (List.mem_cons_of_mem _ hc)) hacc' hn

/-- C3: every candidate returned by the filtered neighbor search fails the
exclusion predicate — if both the query key and the candidate key parse
and have the same movie, their frame distance exceeds 10 — and the query
key itself (indeed the query index's key) never appears in the result. -/
theorem C3_exclusion_correctness (keys : List String) (qi : Nat)
    (cands : List (ℚ × Nat)) (tc : Nat) (n : Neighbor)
    (hnodup : keys.Nodup) (hqi : qi < keys.length)
    (hcands : ∀ c ∈ cands, c.2 < keys.length)
    (hn : n ∈ find_filtered_neighbors keys qi cands tc) :
    (∀ qm cm qf cf, extract_movie_and_frame (keys.getD qi "") = some (qm, qf) →
        extract_movie_and_frame n.screenshot = some (cm, cf) → qm = cm →
        ¬(((qf : Int) - (cf : Int)).natAbs ≤ 10))
    ∧ n.screenshot ≠ keys.getD qi "" := by
  obtain ⟨hexcl, i, hi, hiq, hkey⟩ :=
    mem_filterNeighborsLoop keys qi tc cands [] n hcands (by simp) hn
  constructor
  · intro qm cm qf cf hq hc hm
    exact should_exclude_eq_false_sound _ _ 10 hexcl qm cm qf cf hq hc hm
  · rw [hkey, List.getD_eq_getElem keys "" hi, List.getD_eq_getElem keys "" hqi]
    intro heq
    exact hiq ((hnodup.getElem_inj_iff).mp heq)

/-- Witness for C3 on a concrete four-key corpus: querying
`MovieA__0100.jpg` accepts `MovieA__0200.jpg` (index 2), and the theorem's
conclusions hold for it. -/
theorem C3_exclusion_correctness_witness :
    (∀ qm cm qf cf,
        extract_movie_and_frame
          ((["MovieA__0100.jpg", "MovieA__0105.jpg", "MovieA__0200.jpg",
             "MovieB__0100.jpg"]).getD 0 "") = some (qm, qf) →
        extract_movie_and_frame
          (Neighbor.mk "MovieA__0200.jpg" 2).screenshot = some (cm, cf) → qm = cm →
        ¬(((qf : Int) - (cf : Int)).natAbs ≤ 10))
    ∧ (Neighbor.mk "MovieA__0200.jpg" 2).screenshot
        ≠ (["MovieA__0100.jpg", "MovieA__0105.jpg", "MovieA__0200.jpg",
            "MovieB__0100.jpg"]).getD 0 "" :=
  C3_exclusion_correctness
    ["MovieA__0100.jpg", "MovieA__0105.jpg", "MovieA__0200.jpg", "MovieB__0100.jpg"]
    0 [(0, 0), (1/10, 1), (2, 2), (3, 3)] 20 (Neighbor.mk "MovieA__0200.jpg" 2)
    (by decide) (by decide) (by decide)
    (List.mem_cons_self _ _)

/-- C10: a pair of keys where either side fails to match
`Name__digits.jpg` is never excluded, whatever the window. -/
theorem C10_unparseable_never_excluded (q c : String) (w : Nat)
    (h : extract_movie_and_frame q = none ∨ extract_movie_and_frame c = none) :
    should_exclude q c w = false := by
  rcases h with h | h
  · rw [should_exclude, h]
  · rw [should_exclude, h]
    cases extract_movie_and_frame q <;> rfl

/-- Witness for C10: the candidate `MovieA__01b0.jpg` shares the raw
prefix `MovieA__01` with the query but has a non-digit frame part, so it
is not excluded. -/
theorem C10_unparseable_never_excluded_witness :
    should_exclude "MovieA__0100.jpg" "MovieA__01b0.jpg" 10 = false :=
  C10_unparseable_never_excluded "MovieA__0100.jpg" "MovieA__01b0.jpg" 10
    (Or.inr (by decide))

theorem seqGo_flatten (rest : List Int) (last : Int) (curRev : List Int) :
    (seqGo last curRev rest).flatten = curRev.reverse ++ rest := by
  induction rest generalizing last curRev with
  | nil => simp [seqGo]
  | cons x xs ih =>
    by_cases h : x = last + 1
    · simp only [seqGo, h, if_true, if_pos rfl]
      rw [ih]
      simp
    · simp only [seqGo, h, if_false]
      rw [List.flatten_cons, ih]
      simp

theorem isConsecRun_append_succ (l : List Int) (a x : Int)
    (hl : isConsecRun l = true) (hlast : l.getLast? = some a) (hx : x = a + 1) :
    isConsecRun (l ++ [x]) = true := by
  induction l with
  | nil => simp at hlast
  | cons b bs ih =>
    cases bs with
    | nil =>
      simp at hlast
      subst hlast
      simp [isConsecRun, hx]
    | cons c cs =>
      rw [List.getLast?_cons_cons] at hlast
      have hcons : isConsecRun (b :: c :: cs) = (decide (c = b + 1) && isConsecRun (c :: cs)) := rfl
      rw [hcons] at hl
      have h1 : c = b + 1 := by
        have := (Bool.and_eq_true _ _).mp hl
        exact of_decide_eq_true this.1
      have h2 : isConsecRun (c :: cs) = true := ((Bool.and_eq_true _ _).mp hl).2
      have ihr := ih h2 hlast
      show isConsecRun (b :: (c :: cs ++ [x])) = true
      have : isConsecRun (b :: c :: (cs ++ [x]))
          = (decide (c = b + 1) && isConsecRun (c :: (cs ++ [x]))) := rfl
      simp only [List.cons_append] at ihr ⊢
      rw [this, h1]
      rw [h1] at ihr
      simp [ihr]

theorem seqGo_runs (rest : List Int) (last : Int) (curRev : List Int)
    (hhead : curRev.head? = some last) (hrun : isConsecRun curRev.reverse = true)
    (r : List Int) (hr : r ∈ seqGo last curRev rest) :
    isConsecRun r = true ∧ r ≠ [] := by
  induction rest generalizing last curRev with
  | nil =>
    simp only [seqGo, List.mem_singleton] at hr
    subst hr
    refine ⟨hrun, ?_⟩
    intro h
    rw [List.reverse_eq_nil_iff] at h
    subst h
    simp at hhead
  | cons x xs ih =>
    by_cases h : x = last + 1
    · subst h
      simp only [seqGo, if_pos rfl] at hr
      refine ih (last + 1) ((last + 1) :: curRev) (by simp) ?_ hr
      rw [List.reverse_cons]
      refine isConsecRun_append_succ curRev.reverse last (last + 1) hrun ?_ rfl
      rw [List.getLast?_reverse]
      exact hhead
    · simp only [seqGo, if_neg h, List.mem_cons] at hr
      rcases hr with hr | hr
      · subst hr
        refine ⟨hrun, ?_⟩
        intro hnil
        rw [List.reverse_eq_nil_iff] at hnil
        subst hnil
        simp at hhead
      · exact ih x [x] rfl rfl hr

theorem seqGo_ne_nil (rest : List Int) (last : Int) (curRev : List Int) :
    seqGo last curRev rest ≠ [] := by
  cases rest with
  | nil => simp [seqGo]
  | cons x xs =>
    by_cases h : x = last + 1
    · subst h
      simp only [seqGo, if_pos rfl]
      exact seqGo_ne_nil xs (last + 1) ((last + 1) :: curRev)
    · simp only [seqGo, if_neg h]
      simp

theorem seqGo_head_head (rest : List Int) (last : Int) (curRev : List Int)
    (hne : curRev ≠ []) :
    ((seqGo last curRev rest).head?.getD []).head? = curRev.getLast? := by
  induction rest generalizing last curRev with
  | nil =>
    simp [seqGo, List.head?_reverse]
  | cons x xs ih =>
    by_cases h : x = last + 1
    · subst h
      simp only [seqGo, eq_self_iff_true, if_true]
      rw [ih (last + 1) ((last + 1) :: curRev) (by simp)]
      cases curRev with
      | nil => exact absurd rfl hne
      | cons c cs => simp [List.getLast?_cons_cons]
    · simp only [seqGo, if_neg h, List.head?_cons, Option.getD_some]
      rw [List.head?_reverse]

theorem seqGo_separated (rest : List Int) (last : Int) (curRev : List Int)
    (hhead : curRev.head? = some last) :
    runsSeparated (seqGo last curRev rest) = true := by
  induction rest generalizing last curRev with
  | nil => rfl
  | cons x xs ih =>
    by_cases h : x = last + 1
    · subst h
      simp only [seqGo, if_pos rfl]
      exact ih (last + 1) ((last + 1) :: curRev) rfl
    · simp only [seqGo, if_neg h]
      obtain ⟨r2, rs, hr2⟩ : ∃ r2 rs, seqGo x [x] xs = r2 :: rs := by
        cases hsg : seqGo x [x] xs with
        | nil => exact absurd hsg (seqGo_ne_nil xs x [x])
        | cons r2 rs => exact ⟨r2, rs, rfl⟩
      rw [hr2]
      have hh : r2.head? = some x := by
        have := seqGo_head_head xs x [x] (by simp)
        rw [hr2] at this
        simpa using this
      have hlast1 : curRev.reverse.getLast? = some last := by
        rw [List.getLast?_reverse]
        exact hhead
      show ((match curRev.reverse.getLast?, r2.head? with
            | some a, some b => decide (b ≠ a + 1)
            | _, _ => false) && runsSeparated (r2 :: rs)) = true
      rw [hlast1, hh]
      have hsep : runsSeparated (r2 :: rs) = true := by
        rw [← hr2]
        exact ih x [x] rfl
      simp [hsep, h]

/-- C6: `find_sequences` partitions the sorted frame numbers into
nonempty runs of consecutive values, and the partition is maximal
(adjacent runs cannot be joined); on `[10,11,12,50,51,100]` it returns
`[[10,11,12],[50,51],[100]]`. -/
theorem C6_run_detection (l : List Int) :
    (find_sequences l).flatten = List.insertionSort (· ≤ ·) l
    ∧ (∀ r ∈ find_sequences l, isConsecRun r = true ∧ r ≠ [])
    ∧ runsSeparated (find_sequences l) = true
    ∧ find_sequences [10, 11, 12, 50, 51, 100] = [[10, 11, 12], [50, 51], [100]] := by
  refine ⟨?_, ?_, ?_, by decide⟩
  · unfold find_sequences
    cases h : List.insertionSort (· ≤ ·) l with
    | nil => rfl
    | cons x xs => simp [seqGo_flatten]
  · unfold find_sequences
    cases h : List.insertionSort (· ≤ ·) l with
    | nil => simp
    | cons x xs =>
      intro r hr
      exact seqGo_runs xs x [x] rfl rfl r hr
  · unfold find_sequences
    cases h : List.insertionSort (· ≤ ·) l with
    | nil => rfl
    | cons x xs => exact seqGo_separated xs x [x] rfl

/-- Witness for C6: instantiating the run predicate at the first run of
the spec's example input. -/
theorem C6_run_detection_witness :
    isConsecRun [10, 11, 12] = true ∧ ([10, 11, 12] : List Int) ≠ [] :=
  (C6_run_detection [10, 11, 12, 50, 51, 100]).2.1 [10, 11, 12] (by decide)

theorem getC_bump (m : List (ℚ × Nat × Finset String)) (pct q : ℚ) (c : Nat) (v : String) :
    getC (bump m pct c v) q = getC m q + (if pct = q then c else 0) := by
  induction m with
  | nil =>
    by_cases h : pct = q <;> simp [bump, getC, h]
  | cons hd rest ih =>
    obtain ⟨p, cv⟩ := hd
    by_cases h1 : p = pct
    · subst h1
      by_cases h2 : p = q <;> simp [bump, getC, h2]
    · by_cases h2 : p = q
      · subst h2
        have : ¬ pct = p := fun h => h1 h.symm
        simp [bump, getC, h1, this]
      · simp [bump, getC, h1, h2, ih]

theorem getV_bump (m : List (ℚ × Nat × Finset String)) (pct q : ℚ) (c : Nat) (v : String) :
    getV (bump m pct c v) q = if pct = q then insert v (getV m q) else getV m q := by
  induction m with
  | nil =>
    by_cases h : pct = q <;> simp [bump, getV, h]
  | cons hd rest ih =>
    obtain ⟨p, cv⟩ := hd
    by_cases h1 : p = pct
    · subst h1
      by_cases h2 : p = q <;> simp [bump, getV, h2]
    · by_cases h2 : p = q
      · subst h2
        have : ¬ pct = p := fun h => h1 h.symm
        simp [bump, getV, h1, this]
      · simp [bump, getV, h1, h2, ih]

theorem hasP_bump (m : List (ℚ × Nat × Finset String)) (pct q : ℚ) (c : Nat) (v : String) :
    hasP (bump m pct c v) q = (hasP m q || decide (pct = q)) := by
  induction m with
  | nil => simp [bump, hasP]
  | cons hd rest ih =>
    obtain ⟨p, cv⟩ := hd
    by_cases h1 : p = pct
    · subst h1
      by_cases h2 : p = q <;> simp [bump, hasP, h2]
    · simp [bump, hasP, h1, ih, Bool.or_assoc]

theorem getC_aggregateFold (pts : List TPoint) (m : List (ℚ × Nat × Finset String)) (q : ℚ) :
    getC (aggregateFold pts m) q = getC m q + sumCounts pts q := by
  induction pts generalizing m with
  | nil => simp [aggregateFold, sumCounts]
  | cons p rest ih =>
    show getC (aggregateFold rest (bump m p.percentage p.count p.video)) q = _
    rw [ih, getC_bump]
    have : sumCounts (p :: rest) q
        = (if p.percentage = q then p.count else 0) + sumCounts rest q := by
      by_cases h : p.percentage = q <;> simp [sumCounts, List.filter_cons, h]
    rw [this]
    omega

theorem getV_aggregateFold (pts : List TPoint) (m : List (ℚ × Nat × Finset String)) (q : ℚ) :
    getV (aggregateFold pts m) q = getV m q ∪ videoSet pts q := by
  induction pts generalizing m with
  | nil => simp [aggregateFold, videoSet]
  | cons p rest ih =>
    show getV (aggregateFold rest (bump m p.percentage p.count p.video)) q = _
    rw [ih, getV_bump]
    have hv : videoSet (p :: rest) q
        = if p.percentage = q then insert p.video (videoSet rest q) else videoSet rest q := by
      by_cases h : p.percentage = q <;> simp [videoSet, List.filter_cons, h]
    rw [hv]
    by_cases h : p.percentage = q
    · simp only [h, if_true, if_pos rfl]
      rw [Finset.insert_union, Finset.union_insert]
    · simp [h]

theorem hasP_aggregateFold (pts : List TPoint) (m : List (ℚ × Nat × Finset String)) (q : ℚ) :
    hasP (aggregateFold pts m) q
      = (hasP m q || pts.any (fun p => decide (p.percentage = q))) := by
  induction pts generalizing m with
  | nil => simp [aggregateFold]
  | cons p rest ih =>
    show hasP (aggregateFold rest (bump m p.percentage p.count p.video)) q = _
    rw [ih, hasP_bump]
    simp [Bool.or_assoc, Bool.or_comm, Bool.or_left_comm]

theorem hasP_iff_mem_keys (m : List (ℚ × Nat × Finset String)) (q : ℚ) :
    hasP m q = true ↔ q ∈ m.map Prod.fst := by
  induction m with
  | nil => simp [hasP]
  | cons hd rest ih =>
    obtain ⟨p, cv⟩ := hd
    simp only [hasP, List.map_cons, List.mem_cons, Bool.or_eq_true, decide_eq_true_eq, ih]
    constructor
    · rintro (h | h)
      · exact Or.inl h.symm
      · exact Or.inr h
    · rintro (h | h)
      · exact Or.inl h.symm
      · exact Or.inr h

theorem keys_bump (m : List (ℚ × Nat × Finset String)) (pct : ℚ) (c : Nat) (v : String) :
    (bump m pct c v).map Prod.fst
      = if hasP m pct then m.map Prod.fst else m.map Prod.fst ++ [pct] := by
  induction m with
  | nil => simp [bump, hasP]
  | cons hd rest ih =>
    obtain ⟨p, cv⟩ := hd
    by_cases h : p = pct
    · subst h
      simp [bump, hasP]
    · have hne : ¬ p = pct := h
      simp only [bump, hne, if_false, List.map_cons, hasP]
      rw [ih]
      by_cases h2 : hasP rest pct <;> simp [h2, hne]

theorem keys_bump_nodup (m : List (ℚ × Nat × Finset String)) (pct : ℚ) (c : Nat) (v : String)
    (h : (m.map Prod.fst).Nodup) : ((bump m pct c v).map Prod.fst).Nodup := by
  rw [keys_bump]
  by_cases h2 : hasP m pct
  · simp [h2, h]
  · simp only [h2, if_false, Bool.false_eq_true]
    have hpct : pct ∉ m.map Prod.fst := by
      rw [← hasP_iff_mem_keys]
      simp [h2]
    simp [List.nodup_append, h, hpct]

theorem keys_aggregateFold_nodup (pts : List TPoint) (m : List (ℚ × Nat × Finset String))
    (h : (m.map Prod.fst).Nodup) : ((aggregateFold pts m).map Prod.fst).Nodup := by
  induction pts generalizing m with
  | nil => exact h
  | cons p rest ih =>
    show ((aggregateFold rest (bump m p.percentage p.count p.video)).map Prod.fst).Nodup
    exact ih _ (keys_bump_nodup m p.percentage p.count p.video h)

theorem entry_eq_get (m : List (ℚ × Nat × Finset String))
    (h : (m.map Prod.fst).Nodup) (e : ℚ × Nat × Finset String) (he : e ∈ m) :
    e.2.1 = getC m e.1 ∧ e.2.2 = getV m e.1 := by
  induction m with
  | nil => exact absurd he (List.not_mem_nil e)
  | cons hd rest ih =>
    obtain ⟨p, c, vs⟩ := hd
    rcases List.mem_cons.mp he with he | he
    · subst he
      simp [getC, getV]
    · have hp : p ≠ e.1 := by
        intro hpe
        have : e.1 ∈ rest.map Prod.fst :=
          List.mem_map.mpr ⟨e, he, rfl⟩
        rw [← hpe] at this
        simp only [List.map_cons, List.nodup_cons] at h
        exact h.1 this
      have hrest := ih (by simp only [List.map_cons, List.nodup_cons] at h; exact h.2) he
      simp [getC, getV, hp, hrest]

/-- C7: in the per-cluster aggregation, every emitted point's count is
the sum of the counts of the timeline points at its rounded position and
its video set is the set of their source videos; there is exactly one
point per occurring position; the output is sorted by position ascending;
and the spec's merge example holds: `(A, 0.30, 3)` and `(B, 0.30, 2)`
merge into `(0.30, 5, \x7bA, B\x7d)`. -/
theorem C7_merge_aggregation (pts : List TPoint) :
    (∀ e ∈ aggregatePoints pts, e.2.1 = sumCounts pts e.1 ∧ e.2.2 = videoSet pts e.1)
    ∧ ((aggregatePoints pts).map Prod.fst).Nodup
    ∧ (∀ q : ℚ, q ∈ (aggregatePoints pts).map Prod.fst ↔ q ∈ pts.map TPoint.percentage)
    ∧ (aggregatePoints pts).Sorted (fun a b => a.1 ≤ b.1)
    ∧ aggregatePoints [TPoint.mk "A" (3/10) 3, TPoint.mk "B" (3/10) 2]
        = [(3/10, 5, {"A", "B"})] := by
  have hperm : (aggregatePoints pts).Perm (aggregateFold pts []) :=
    List.perm_insertionSort _ _
  have hnodup : ((aggregateFold pts []).map Prod.fst).Nodup :=
    keys_aggregateFold_nodup pts [] (by simp)
  refine ⟨?_, ?_, ?_, ?_, ?_⟩
  · intro e he
    have he' : e ∈ aggregateFold pts [] := hperm.mem_iff.mp he
    have hchar := entry_eq_get (aggregateFold pts []) hnodup e he'
    have hc := getC_aggregateFold pts [] e.1
    have hv := getV_aggregateFold pts [] e.1
    simp only [getC, getV] at hc hv
    rw [Finset.empty_union] at hv
    rw [Nat.zero_add] at hc
    exact ⟨hchar.1.trans hc, hchar.2.trans hv⟩
  · exact ((hperm.map Prod.fst).nodup_iff).mpr hnodup
  · intro q
    rw [(hperm.map Prod.fst).mem_iff, ← hasP_iff_mem_keys, hasP_aggregateFold]
    simp only [hasP, Bool.false_or, List.any_eq_true, decide_eq_true_eq, List.mem_map]
  · exact List.sorted_insertionSort _ _
  · show List.insertionSort _
        (bump (bump [] ((3:ℚ)/10) 3 "A") ((3:ℚ)/10) 2 "B") = _
    simp only [bump, if_pos rfl, List.insertionSort]
    have h5 : 3 + 2 = 5 := rfl
    have hAB : insert "B" ({"A"} : Finset String) = {"A", "B"} := by
      rw [Finset.pair_comm]
    rw [h5, hAB]
    rfl

/-- Witness for C7: the merged point of the spec's example satisfies the
count/videos characterization. -/
theorem C7_merge_aggregation_witness :
    ((3/10 : ℚ), 5, ({"A", "B"} : Finset String)).2.1
        = sumCounts [TPoint.mk "A" (3/10) 3, TPoint.mk "B" (3/10) 2]
            ((3/10 : ℚ), 5, ({"A", "B"} : Finset String)).1
    ∧ ((3/10 : ℚ), 5, ({"A", "B"} : Finset String)).2.2
        = videoSet [TPoint.mk "A" (3/10) 3, TPoint.mk "B" (3/10) 2]
            ((3/10 : ℚ), 5, ({"A", "B"} : Finset String)).1 :=
  (C7_merge_aggregation [TPoint.mk "A" (3/10) 3, TPoint.mk "B" (3/10) 2]).1
    ((3/10 : ℚ), 5, ({"A", "B"} : Finset String))
    (by
      rw [(C7_merge_aggregation [TPoint.mk "A" (3/10) 3, TPoint.mk "B" (3/10) 2]).2.2.2.2]
      exact List.mem_singleton.mpr rfl)

/-- C9: keys without a `__` delimiter, keys whose frame part fails
integer parsing, keys with an empty video part, and keys whose frame
number is 0 are all silently excluded from video groups (the code tests
truthiness, not `None`); keys parsing to a non-empty name and a nonzero
frame are included.  Concretely, `Movie__0000.jpg` parses to
`("Movie", 0)` yet is excluded, while `Movie__0005.jpg` is included. -/
theorem C9_truthiness_filter (fn v : String) (n : Int) :
    (lastIdxOfPair fn.toList = none → includedInVideoGroup fn = false)
    ∧ (parse_filename fn = none → includedInVideoGroup fn = false)
    ∧ (parse_filename fn = some (v, n) → n = 0 → includedInVideoGroup fn = false)
    ∧ (parse_filename fn = some (v, n) → v = "" → includedInVideoGroup fn = false)
    ∧ (parse_filename fn = some (v, n) → v ≠ "" → n ≠ 0 →
        includedInVideoGroup fn = true)
    ∧ parse_filename "Movie__0000.jpg" = some ("Movie", 0)
    ∧ includedInVideoGroup "Movie__0000.jpg" = false
    ∧ includedInVideoGroup "nodelimiter.jpg" = false
    ∧ includedInVideoGroup "Movie__abc.jpg" = false
    ∧ includedInVideoGroup "__0005.jpg" = false
    ∧ includedInVideoGroup "Movie__0005.jpg" = true := by
  refine ⟨?_, ?_, ?_, ?_, ?_, by decide, by decide, by decide, by decide, by decide, by decide⟩
  · intro h
    simp only [String.toList] at h
    simp [includedInVideoGroup, parse_filename, h]
  · intro h
    simp [includedInVideoGroup, h]
  · intro h hn
    simp [includedInVideoGroup, h, hn]
  · intro h hv
    simp [includedInVideoGroup, h, hv]
  · intro h hv hn
    simp [includedInVideoGroup, h, hv, hn]

/-- Witness for C9: the frame-zero key is excluded via the theorem's
zero-frame clause. -/
theorem C9_truthiness_filter_witness :
    includedInVideoGroup "Movie__0000.jpg" = false :=
  (C9_truthiness_filter "Movie__0000.jpg" "Movie" 0).2.2.1 (by decide) rfl

theorem getD_addMember (m : List (Int × List String)) (lab q : Int) (k : String) :
    (lget (addMember m lab k) q).getD []
      = (lget m q).getD [] ++ (if lab = q then [k] else []) := by
  induction m with
  | nil =>
    by_cases h : lab = q <;> simp [addMember, lget, h]
  | cons hd rest ih =>
    obtain ⟨l, ms⟩ := hd
    by_cases h1 : l = lab
    · subst h1
      by_cases h2 : l = q <;> simp [addMember, lget, h2]
    · by_cases h2 : l = q
      · subst h2
        have : ¬ lab = l := fun h => h1 h.symm
        simp [addMember, lget, h1, this]
      · simp [addMember, lget, h1, h2, ih]

theorem getD_foldl_addMember (ps : List (String × Int))
    (m : List (Int × List String)) (q : Int) :
    (lget (ps.foldl (fun m kl => addMember m kl.2 kl.1) m) q).getD []
      = (lget m q).getD [] ++ msOf ps q := by
  induction ps generalizing m with
  | nil => simp [msOf]
  | cons kl rest ih =>
    obtain ⟨k, lab⟩ := kl
    show (lget (rest.foldl _ (addMember m lab k)) q).getD [] = _
    rw [ih, getD_addMember]
    have : msOf ((k, lab) :: rest) q
        = (if lab = q then [k] else []) ++ msOf rest q := by
      by_cases h : lab = q <;> simp [msOf, List.filter_cons, h]
    rw [this, List.append_assoc]

theorem foldl_lput_eq_append {κ α : Type} [DecidableEq κ] (ps : List (κ × α))
    (m : List (κ × α)) (hnodup : (ps.map Prod.fst).Nodup)
    (habs : ∀ kl ∈ ps, lget m kl.1 = none) :
    ps.foldl (fun m kl => lput m kl.1 kl.2) m = m ++ ps := by
  induction ps generalizing m with
  | nil => simp
  | cons kl rest ih =>
    obtain ⟨k, v⟩ := kl
    show rest.foldl _ (lput m k v) = _
    rw [lput_of_absent m k v (habs (k, v) (List.mem_cons_self _ _))]
    have hnodup' : (rest.map Prod.fst).Nodup := by
      simp only [List.map_cons, List.nodup_cons] at hnodup
      exact hnodup.2
    have hknotin : k ∉ rest.map Prod.fst := by
      simp only [List.map_cons, List.nodup_cons] at hnodup
      exact hnodup.1
    have habs' : ∀ kl ∈ rest, lget (m ++ [(k, v)]) kl.1 = none := by
      intro kl hkl
      rw [lget_append]
      have h1 : lget m kl.1 = none := habs kl (List.mem_cons_of_mem _ hkl)
      have h2 : lget [(k, v)] kl.1 = none := by
        have : k ≠ kl.1 := by
          intro hk
          exact hknotin (hk ▸ List.mem_map.mpr ⟨kl, hkl, rfl⟩)
        simp [lget, this]
      simp [h1, h2]
    rw [ih _ hnodup' habs', List.append_assoc]
    rfl

theorem lget_eq_some_iff_mem {κ α : Type} [DecidableEq κ] (ps : List (κ × α))
    (h : (ps.map Prod.fst).Nodup) (k : κ) (v : α) :
    lget ps k = some v ↔ (k, v) ∈ ps := by
  induction ps with
  | nil => simp [lget]
  | cons kl rest ih =>
    obtain ⟨k', v'⟩ := kl
    simp only [List.map_cons, List.nodup_cons] at h
    by_cases h1 : k' = k
    · subst h1
      have hl : lget ((k', v') :: rest) k' = some v' := by simp [lget]
      rw [hl]
      constructor
      · intro hv
        have hvv : v' = v := Option.some_inj.mp hv
        subst hvv
        exact List.mem_cons_self _ _
      · intro hmem
        rcases List.mem_cons.mp hmem with heq | hmem
        · have hvv : v = v' := (Prod.ext_iff.mp heq).2
          rw [hvv]
        · exact absurd (List.mem_map.mpr ⟨(k', v), hmem, rfl⟩) h.1
    · have hl : lget ((k', v') :: rest) k = lget rest k := by simp [lget, h1]
      rw [hl, ih h.2]
      constructor
      · exact fun hmem => List.mem_cons_of_mem _ hmem
      · intro hmem
        rcases List.mem_cons.mp hmem with heq | hmem
        · exact absurd (Prod.ext_iff.mp heq).1.symm h1
        · exact hmem

theorem mem_msOf (ps : List (String × Int)) (q : Int) (k : String) :
    k ∈ msOf ps q ↔ (k, q) ∈ ps := by
  simp only [msOf, List.mem_map, List.mem_filter, decide_eq_true_eq]
  constructor
  · rintro ⟨⟨k', q'⟩, ⟨hmem, hq⟩, hk⟩
    simp only at hq hk
    subst hq hk
    exact hmem
  · intro h
    exact ⟨(k, q), ⟨h, rfl⟩, rfl⟩

theorem mem_zip_of_mem_left {α β : Type} (ks : List α) (ls : List β) (k : α)
    (hlen : ks.length = ls.length) (hk : k ∈ ks) : ∃ l, (k, l) ∈ ks.zip ls := by
  induction ks generalizing ls with
  | nil => exact absurd hk (List.not_mem_nil k)
  | cons a as ih =>
    cases ls with
    | nil => simp at hlen
    | cons b bs =>
      rcases List.mem_cons.mp hk with h | h
      · exact ⟨b, by simp [h]⟩
      · obtain ⟨l, hl⟩ := ih bs (by simpa using hlen) h
        exact ⟨l, List.mem_cons_of_mem _ hl⟩

/-- C8: for the membership map and reverse index built from the same
key/label arrays (distinct keys, equal lengths), `reverse_index[key] =
label` iff `key` appears in `membership[label]`, and every key appears in
the member list of exactly one label. -/
theorem C8_bijection_consistency (keys : List String) (labels : List Int)
    (hnodup : keys.Nodup) (hlen : keys.length = labels.length) :
    (∀ k lab, lget (save_reverse_index keys labels) k = some lab
        ↔ k ∈ membersOf keys labels lab)
    ∧ (∀ k, k ∈ keys → ∃! lab, k ∈ membersOf keys labels lab) := by
  have hfst : (keys.zip labels).map Prod.fst = keys :=
    List.map_fst_zip keys labels (le_of_eq hlen)
  have hfstnodup : ((keys.zip labels).map Prod.fst).Nodup := by
    rw [hfst]; exact hnodup
  have hri : save_reverse_index keys labels = keys.zip labels := by
    rw [save_reverse_index, foldl_lput_eq_append _ [] hfstnodup (fun kl _ => rfl)]
    rfl
  have hmem : ∀ k lab, k ∈ membersOf keys labels lab ↔ (k, lab) ∈ keys.zip labels := by
    intro k lab
    rw [membersOf, analyze_clusters, getD_foldl_addMember]
    simp only [lget, Option.getD_none, List.nil_append]
    exact mem_msOf _ _ _
  refine ⟨?_, ?_⟩
  · intro k lab
    rw [hri, hmem, lget_eq_some_iff_mem _ hfstnodup]
  · intro k hk
    obtain ⟨lab, hlab⟩ := mem_zip_of_mem_left keys labels k hlen hk
    refine ⟨lab, (hmem k lab).mpr hlab, ?_⟩
    intro lab' hlab'
    have h1 : lget (keys.zip labels) k = some lab' :=
      (lget_eq_some_iff_mem _ hfstnodup k lab').mpr ((hmem k lab').mp hlab')
    have h2 : lget (keys.zip labels) k = some lab :=
      (lget_eq_some_iff_mem _ hfstnodup k lab).mpr hlab
    rw [h1] at h2
    exact Option.some_inj.mp h2

/-- Witness for C8 on a concrete three-key, two-cluster assignment. -/
theorem C8_bijection_consistency_witness :
    lget (save_reverse_index ["a__1.jpg", "b__2.jpg", "c__3.jpg"] [0, 1, 0]) "a__1.jpg"
        = some 0
      ↔ "a__1.jpg" ∈ membersOf ["a__1.jpg", "b__2.jpg", "c__3.jpg"] [0, 1, 0] 0 :=
  (C8_bijection_consistency ["a__1.jpg", "b__2.jpg", "c__3.jpg"] [0, 1, 0]
    (by decide) rfl).1 "a__1.jpg" 0

end Giallo
